import Mathlib

/-!
# Order book server (`src/server.cpp`): model and verified properties

The development embeds the `OrderBook` class and the request dispatch of
`startServer` as pure Lean functions and proves the properties of the
specification about them.

Modelling conventions.

* `Double` holds the *value* of a C++ `double`: NaN, one of the two
  infinities, or a finite number, kept as the rational it denotes.  The
  comparisons `<`, `<=`, `==` follow IEEE 754 (every comparison with NaN is
  false).  `+` is the binary64 addition: the exact sum of two finite values is
  rounded to the nearest binary64 number, a tie going to the even significand,
  and a result of magnitude `2 ^ 1024` or more is an infinity.  `-0.0` is
  identified with `0.0` (they compare equal and add alike).
* A `std::multimap<double, double>` is the list of its entries in iteration
  order (ascending key, entries of equal key in insertion order).
* `std::mutex` and `std::lock_guard` are not modelled: every member function is
  one atomic state transformer.  Text written to `std::cout` / `std::cerr` is
  returned as a list of `Output` events; number formatting is not modelled,
  a table cell holds the value that is printed.
-/

namespace OrderBookServer

/-! ## `double` -/

/-- Value of a C++ `double`. -/
inductive Double where
  | nan
  | negInf
  | fin (q : ℚ)
  | posInf
  deriving DecidableEq

namespace Double

/-- The literal `0`. -/
def zero : Double := fin 0

/-- IEEE `a < b`. -/
def lt : Double → Double → Bool
  | fin a, fin b => decide (a < b)
  | negInf, fin _ => true
  | negInf, posInf => true
  | fin _, posInf => true
  | _, _ => false

/-- IEEE `a == b`. -/
def eq : Double → Double → Bool
  | fin a, fin b => decide (a = b)
  | negInf, negInf => true
  | posInf, posInf => true
  | _, _ => false

/-- IEEE `a <= b`. -/
def le (a b : Double) : Bool := lt a b || eq a b

/-- IEEE `a > b`. -/
def gt (a b : Double) : Bool := lt b a

/-- Nearest integer to `x`, a tie going to the even one. -/
def roundHalfEven (x : ℚ) : ℤ :=
  if x - ⌊x⌋ < 1 / 2 then ⌊x⌋
  else if 1 / 2 < x - ⌊x⌋ then ⌊x⌋ + 1
  else if ⌊x⌋ % 2 = 0 then ⌊x⌋ else ⌊x⌋ + 1

/-- Spacing of the binary64 numbers at `q ≠ 0`: `2 ^ (e - 52)` for the binary
exponent `e` of `q` (53 significant bits), with the exponent `-1022` of the
subnormal numbers as the least one. -/
def quantum (q : ℚ) : ℚ := 2 ^ (max (Int.log 2 |q|) (-1022) - 52)

/-- The binary64 number an exact result `q` is rounded to (IEEE 754
`roundTiesToEven`, the default rounding of C++): the nearest multiple of the
quantum, and an infinity when that multiple reaches `2 ^ 1024`. -/
def round64 (q : ℚ) : Double :=
  if q = 0 then fin 0
  else if 2 ^ 1024 ≤ (roundHalfEven (|q| / quantum q) : ℚ) * quantum q then
    (if 0 < q then posInf else negInf)
  else if 0 < q then fin (roundHalfEven (|q| / quantum q) * quantum q)
  else fin (-(roundHalfEven (|q| / quantum q) * quantum q))

/-- IEEE binary64 `a + b`. -/
def add : Double → Double → Double
  | nan, _ => nan
  | _, nan => nan
  | posInf, negInf => nan
  | negInf, posInf => nan
  | posInf, _ => posInf
  | _, posInf => posInf
  | negInf, _ => negInf
  | _, negInf => negInf
  | fin a, fin b => round64 (a + b)

end Double

/-! ## `std::multimap<double, double>` -/

/-- One `std::pair<const double, double>`: `first` is the price, `second` the
quantity. -/
abbrev Entry := Double × Double

/-- Entries of a `std::multimap<double, double>` in iteration order. -/
abbrev Side := List Entry

/-- `std::multimap::insert`: the new entry goes to the upper bound of its key,
which is in front of the first entry whose key is greater. -/
def multimapInsert : Side → Double → Double → Side
  | [], k, v => [(k, v)]
  | e :: rest, k, v =>
    if Double.lt k e.1 then (k, v) :: e :: rest
    else e :: multimapInsert rest k v

/-- Representation invariant of a multimap: no key is NaN (`std::less<double>`
is a strict weak ordering only without NaN) and the keys never decrease along
the iteration order. -/
def Side.WF (s : Side) : Prop :=
  (∀ e ∈ s, e.1 ≠ Double.nan) ∧ s.Pairwise (fun a b => Double.le a.1 b.1 = true)

/-- The value of `quantity` after `quantity = q0; quantity += q1; ...` over
the given quantities, added up from left to right in binary64. -/
def accumulate : List Double → Double
  | [] => Double.zero
  | q :: qs => qs.foldl Double.add q

/-- The binary64 sum of the quantities of the entries at the price `p`, added
up in the order in which `it` lists the entries. -/
def quantityAt (it : List Entry) (p : Double) : Double :=
  accumulate ((it.filter (fun e => Double.eq e.1 p)).map Prod.snd)

/-- The relation between the entries `it` of a side, listed in the order in
which the aggregation visits them, and the aggregated side `t`: `t` has
exactly one entry per price, the prices of `t` are the prices of `it`, the
quantity of every entry of `t` is the binary64 sum, added up in visiting
order, of the quantities `it` holds at that price, and `t` has as many entries
as `it` has distinct prices. -/
def Side.IsAggregationOf (t it : Side) : Prop :=
  (t.map Prod.fst).Nodup ∧
  (∀ p, p ∈ t.map Prod.fst ↔ p ∈ it.map Prod.fst) ∧
  (∀ e ∈ t, e.2 = quantityAt it e.1) ∧
  t.length = (it.map Prod.fst).dedup.length

/-- Positivity of a side: every entry has a price and a quantity `> 0`. -/
def Side.Positive (s : Side) : Prop :=
  ∀ e ∈ s, Double.gt e.1 Double.zero = true ∧ Double.gt e.2 Double.zero = true

/-- A value `> 0` that binary64 can hold: `+∞`, or a finite value that is not
below the least positive binary64 number `2 ^ (-1074)`. -/
def Double.PositiveValue : Double → Prop
  | Double.fin q => (2 : ℚ) ^ (-1074 : ℤ) ≤ q
  | Double.posInf => True
  | _ => False

/-- Positivity of a side whose quantities are binary64 values. -/
def Side.Positive64 (s : Side) : Prop :=
  ∀ e ∈ s, Double.gt e.1 Double.zero = true ∧ Double.PositiveValue e.2

/-! ## `class OrderBook` -/

/-- Data members of `OrderBook` (the mutex carries no data). -/
structure OrderBook where
  bid : Side
  ask : Side
  is_operational : Bool
  deriving DecidableEq

/-- One data row of the printed table: the bid cells and the ask cells, `none`
for the blank cells. -/
abbrev Row := Option Entry × Option Entry

/-- What a call writes to the console. -/
inductive Output where
  | logError (errorMessage : String)
  | perror (what : String)
  | table (rows : List Row)
  deriving DecidableEq

/-- `OrderBook::OrderBook()`. -/
def OrderBook.new : OrderBook := { bid := [], ask := [], is_operational := true }

/-- `OrderBook::addBid`. -/
def addBid (ob : OrderBook) (price quantity : Double) : OrderBook × List Output :=
  if Double.le price Double.zero || Double.le quantity Double.zero then
    (ob, [Output.logError "Invalid bid price or quantity"])
  else
    ({ ob with bid := multimapInsert ob.bid price quantity }, [])

/-- `OrderBook::addAsk`. -/
def addAsk (ob : OrderBook) (price quantity : Double) : OrderBook × List Output :=
  if Double.le price Double.zero || Double.le quantity Double.zero then
    (ob, [Output.logError "Invalid ask price or quantity"])
  else
    ({ ob with ask := multimapInsert ob.ask price quantity }, [])

/-- Inner `while` of `aggregateOrders`: starting behind `current`, adds up the
quantities of the following entries while their key `==` `price`; returns the
accumulated quantity and the position the iterator stops at. -/
def absorb (price : Double) : Double → List Entry → Double × List Entry
  | quantity, [] => (quantity, [])
  | quantity, e :: rest =>
    if Double.eq e.1 price then absorb price (Double.add quantity e.2) rest
    else (quantity, e :: rest)

/-- Outer `for` of `aggregateOrders` over the not yet visited entries `it`,
inserting one merged entry per run into the new multimap `acc`. -/
def aggregateLoop : List Entry → Side → Side
  | [], acc => acc
  | current :: it, acc =>
    aggregateLoop (absorb current.1 current.2 it).2
      (multimapInsert acc current.1 (absorb current.1 current.2 it).1)
termination_by it _ => it.length
decreasing_by
  have h : ∀ (l : List Entry) (p q : Double), (absorb p q l).2.length ≤ l.length := by
    intro l
    induction l with
    | nil => intro _ _; simp [absorb]
    | cons e rest ih =>
      intro p q
      unfold absorb
      split
      · exact Nat.le_succ_of_le (ih _ _)
      · exact Nat.le_refl _
  simp only [List.length_cons]
  exact Nat.lt_succ_of_le (h _ _ _)

/-- `OrderBook::aggregateOrders`: bids are visited from `rbegin()`, asks from
`begin()`. -/
def aggregateOrders (ob : OrderBook) : OrderBook :=
  { ob with
    bid := aggregateLoop ob.bid.reverse []
    ask := aggregateLoop ob.ask [] }

/-- The `while` of `displayOrderBook` over the two iterators. -/
def displayRows : List Entry → List Entry → List Row
  | [], [] => []
  | b :: bidIt, [] => (some b, none) :: displayRows bidIt []
  | [], a :: askIt => (none, some a) :: displayRows [] askIt
  | b :: bidIt, a :: askIt => (some b, some a) :: displayRows bidIt askIt

/-- `OrderBook::displayOrderBook`: the header lines are constant, the event
carries the data rows. -/
def displayOrderBook (ob : OrderBook) : OrderBook × List Output :=
  (ob, [Output.table (displayRows ob.bid.reverse ob.ask)])

/-! ## Request dispatch of `startServer` -/

/-- A `char`. -/
abbrev Byte := Fin 256

/-- Bytes of an ASCII string literal. -/
def ascii (s : String) : List Byte := s.toList.map (fun c => Fin.ofNat c.toNat)

/-- Size of `buffer`. -/
def bufferSize : Nat := 1024

/-- The buffer after `char buffer[1024] = {0}` and a `read` that delivered
`payload` (at most `sizeof(buffer)` bytes are taken). -/
def fillBuffer (payload : List Byte) : List Byte :=
  payload.take bufferSize ++ List.replicate (bufferSize - (payload.take bufferSize).length) 0

/-- `std::string request(buffer)`: the bytes in front of the first zero byte.
Without a zero byte in the buffer the constructor reads past the array, which
is undefined: `none`. -/
def cString (buffer : List Byte) : Option (List Byte) :=
  if (0 : Byte) ∈ buffer then some (buffer.takeWhile (fun c => c ≠ 0)) else none

/-- The `if` chain on `request`. -/
def dispatch (ob : OrderBook) (request : List Byte) : OrderBook × List Output :=
  if request = ascii "insertBid" then addBid ob (Double.fin 150) (Double.fin 10)
  else if request = ascii "insertAsk" then addAsk ob (Double.fin 155) (Double.fin 10)
  else if request = ascii "displayOrderBook" then displayOrderBook ob
  else (ob, [])

/-- Result of `read(client_fd, buffer, sizeof(buffer))`: `-1`, or the bytes
delivered. -/
inductive ReadResult where
  | error
  | data (payload : List Byte)

/-- The branch `events[i].events & EPOLLIN` of `startServer` for one client
connection. -/
def handleReadable (ob : OrderBook) : ReadResult → Option (OrderBook × List Output)
  | ReadResult.error => some (ob, [Output.perror "read"])
  | ReadResult.data payload =>
    match cString (fillBuffer payload) with
    | none => none
    | some request => some (dispatch ob request)

/-- An order book with one bid at the price 140, two bids at 150 and two asks
at 155. -/
def sampleBook : OrderBook :=
  { bid := [(Double.fin 140, Double.fin 7), (Double.fin 150, Double.fin 10),
      (Double.fin 150, Double.fin 5)]
    ask := [(Double.fin 155, Double.fin 10), (Double.fin 155, Double.fin 2)]
    is_operational := true }

/-- The order book after `addBid(100, 1e16)`, `addBid(100, 1)`, `addBid(100, 1)`
and the same three calls of `addAsk`. -/
def roundingBook : OrderBook :=
  { bid := [(Double.fin 100, Double.fin 10000000000000000), (Double.fin 100, Double.fin 1),
      (Double.fin 100, Double.fin 1)]
    ask := [(Double.fin 100, Double.fin 10000000000000000), (Double.fin 100, Double.fin 1),
      (Double.fin 100, Double.fin 1)]
    is_operational := true }

/-- The order book after `addAsk(5, 1)`, `addAsk(NaN, 1)`, `addAsk(5, 2)`. -/
def splitBook : OrderBook :=
  { bid := []
    ask := [(Double.fin 5, Double.fin 1), (Double.nan, Double.fin 1),
      (Double.fin 5, Double.fin 2)]
    is_operational := true }

/-- The order book after `addBid(NaN, 1)`, `addBid(NaN, 2)`, `addBid(100, 3)`. -/
def nanBook : OrderBook :=
  { bid := [(Double.nan, Double.fin 1), (Double.nan, Double.fin 2),
      (Double.fin 100, Double.fin 3)]
    ask := []
    is_operational := true }

/-! ## Facts about binary64 rounding -/

theorem Double.roundHalfEven_intCast (z : ℤ) : Double.roundHalfEven (z : ℚ) = z := by
  simp [Double.roundHalfEven]

theorem Double.roundHalfEven_tie (f : ℤ) :
    Double.roundHalfEven ((f : ℚ) + 1 / 2) = if f % 2 = 0 then f else f + 1 := by
  have hfl : ⌊(f : ℚ) + 1 / 2⌋ = f := by
    rw [Int.floor_eq_iff]
    constructor <;> norm_num
  unfold Double.roundHalfEven
  rw [hfl]
  norm_num

theorem Double.quantum_eq (q : ℚ) (hq : 0 < q) (e : ℤ) (hlo : (2 : ℚ) ^ e ≤ q)
    (hhi : q < (2 : ℚ) ^ (e + 1)) (he : -1022 ≤ e) :
    Double.quantum q = 2 ^ (e - 52) := by
  have h1 : e ≤ Int.log 2 q := (Int.zpow_le_iff_le_log (by norm_num) hq).mp (by exact_mod_cast hlo)
  have h2 : Int.log 2 q < e + 1 :=
    (Int.lt_zpow_iff_log_lt (by norm_num) hq).mp (by exact_mod_cast hhi)
  have h3 : Int.log 2 q = e := by omega
  unfold Double.quantum
  rw [abs_of_pos hq, h3, max_eq_left he]

theorem Double.round64_pos (q : ℚ) (hq : 0 < q) :
    Double.round64 q =
      if (2 : ℚ) ^ 1024 ≤ (Double.roundHalfEven (q / Double.quantum q) : ℚ) * Double.quantum q
      then Double.posInf
      else Double.fin (Double.roundHalfEven (q / Double.quantum q) * Double.quantum q) := by
  unfold Double.round64
  rw [if_neg hq.ne', abs_of_pos hq]
  simp only [hq, if_true]

/-- A natural number below `2 ^ 53`, scaled by a power of two, is a binary64
number: rounding leaves it as it is. -/
theorem Double.round64_scaled (m j : ℕ) (h0 : 0 < m) (h : m < 2 ^ 53) (hj : j ≤ 900) :
    Double.round64 ((m : ℚ) * 2 ^ j) = Double.fin ((m : ℚ) * 2 ^ j) := by
  have hm : (0 : ℚ) < m := by exact_mod_cast h0
  have hq : (0 : ℚ) < (m : ℚ) * 2 ^ j := by positivity
  have hlo : (2 : ℚ) ^ Int.log 2 ((m : ℚ) * 2 ^ j) ≤ (m : ℚ) * 2 ^ j := by
    have := @Int.zpow_log_le_self ℚ _ _ 2 _ (by norm_num) hq
    exact_mod_cast this
  have hhi : (m : ℚ) * 2 ^ j < (2 : ℚ) ^ (Int.log 2 ((m : ℚ) * 2 ^ j) + 1) := by
    have := @Int.lt_zpow_succ_log_self ℚ _ _ 2 (by norm_num) ((m : ℚ) * 2 ^ j)
    exact_mod_cast this
  have hone : (1 : ℚ) ≤ (m : ℚ) * 2 ^ j := by
    have h1 : (1 : ℚ) ≤ m := by exact_mod_cast h0
    have h2 : (1 : ℚ) ≤ 2 ^ j := one_le_pow₀ (by norm_num)
    calc (1 : ℚ) = 1 * 1 := by norm_num
      _ ≤ (m : ℚ) * 2 ^ j := mul_le_mul h1 h2 (by norm_num) hm.le
  have hupper : (m : ℚ) * 2 ^ j < (2 : ℚ) ^ (53 + j) := by
    have h1 : (m : ℚ) < 2 ^ 53 := by exact_mod_cast h
    rw [pow_add]
    exact mul_lt_mul_of_pos_right h1 (by positivity)
  have he0 : 0 ≤ Int.log 2 ((m : ℚ) * 2 ^ j) := by
    apply (@Int.zpow_le_iff_le_log ℚ _ _ 2 (by norm_num) 0 _ hq).mp
    simpa using hone
  have he1 : Int.log 2 ((m : ℚ) * 2 ^ j) < 53 + j := by
    apply (@Int.lt_zpow_iff_log_lt ℚ _ _ 2 (by norm_num) (53 + j) _ hq).mp
    have : ((2 : ℕ) : ℚ) ^ ((53 : ℤ) + (j : ℤ)) = (2 : ℚ) ^ (53 + j) := by
      norm_cast
    rw [this]
    exact hupper
  have hu := Double.quantum_eq _ hq _ hlo hhi (by omega)
  obtain ⟨k, hk⟩ : ∃ k : ℕ, (k : ℤ) = j + 52 - Int.log 2 ((m : ℚ) * 2 ^ j) :=
    ⟨(j + 52 - Int.log 2 ((m : ℚ) * 2 ^ j)).toNat, Int.toNat_of_nonneg (by omega)⟩
  have hdiv : (m : ℚ) * 2 ^ j / Double.quantum ((m : ℚ) * 2 ^ j) = ((m * 2 ^ k : ℤ) : ℚ) := by
    rw [hu, div_eq_mul_inv, ← zpow_neg, mul_assoc, ← zpow_natCast (2 : ℚ) j,
      ← zpow_add₀ (by norm_num : (2 : ℚ) ≠ 0)]
    have hexp : (j : ℤ) + -(Int.log 2 ((m : ℚ) * 2 ^ (j : ℤ)) - 52) = k := by
      rw [hk]
      simp only [zpow_natCast]
      ring
    rw [hexp, zpow_natCast]
    push_cast
    ring
  have hune : Double.quantum ((m : ℚ) * 2 ^ j) ≠ 0 := by
    rw [hu]
    positivity
  rw [Double.round64_pos _ hq, hdiv, Double.roundHalfEven_intCast, ← hdiv,
    div_mul_cancel₀ _ hune]
  have hlt : ¬ (2 : ℚ) ^ 1024 ≤ (m : ℚ) * 2 ^ j := by
    rw [not_le]
    refine lt_of_lt_of_le hupper (pow_le_pow_right₀ (by norm_num) (by omega))
  rw [if_neg hlt]
theorem Double.round64_nat (m : ℕ) (h0 : 0 < m) (h : m < 2 ^ 53) :
    Double.round64 (m : ℚ) = Double.fin (m : ℚ) := by
  simpa using Double.round64_scaled m 0 h0 h (by norm_num)

/-- Rounding of a positive `q` with the binary exponent `e`. -/
theorem Double.round64_of_exponent (q : ℚ) (hq : 0 < q) (e : ℤ) (hlo : (2 : ℚ) ^ e ≤ q)
    (hhi : q < (2 : ℚ) ^ (e + 1)) (he : -1022 ≤ e) (n : ℤ)
    (hn : Double.roundHalfEven (q / 2 ^ (e - 52)) = n)
    (hr : (n : ℚ) * 2 ^ (e - 52) < 2 ^ 1024) :
    Double.round64 q = Double.fin ((n : ℚ) * 2 ^ (e - 52)) := by
  rw [Double.round64_pos q hq, Double.quantum_eq q hq e hlo hhi he, hn, if_neg (not_le.mpr hr)]

theorem Double.add_fin (a b : ℚ) :
    Double.add (Double.fin a) (Double.fin b) = Double.round64 (a + b) := rfl

/-- In binary64, `1e16 + 1` is `1e16`: the exact sum lies half way between
`1e16` and `1e16 + 2` and the tie goes to the even significand. -/
theorem Double.add_1e16_1 :
    Double.add (Double.fin 10000000000000000) (Double.fin 1) = Double.fin 10000000000000000 := by
  rw [Double.add_fin]
  have h := Double.round64_of_exponent 10000000000000001 (by norm_num) 53 (by norm_num)
    (by norm_num) (by norm_num) 5000000000000000
    (by
      have h2 : (10000000000000001 : ℚ) / 2 ^ ((53 : ℤ) - 52)
          = ((5000000000000000 : ℤ) : ℚ) + 1 / 2 := by norm_num
      rw [h2, Double.roundHalfEven_tie]
      norm_num)
    (by norm_num)
  norm_num at h ⊢
  exact h

/-- Sums of small whole numbers are exact. -/
theorem Double.add_small (a b : ℕ) (h0 : 0 < a + b) (h : a + b < 2 ^ 53) :
    Double.add (Double.fin a) (Double.fin b) = Double.fin ((a + b : ℕ) : ℚ) := by
  rw [Double.add_fin, ← Nat.cast_add, Double.round64_nat (a + b) h0 h]

/-! ## Facts about `double` comparisons -/

theorem Double.eq_iff (a b : Double) : Double.eq a b = true ↔ a = b ∧ a ≠ Double.nan := by
  cases a <;> cases b <;> simp [Double.eq]

theorem Double.lt_irrefl (a : Double) : Double.lt a a = false := by
  cases a <;> simp [Double.lt]

theorem Double.le_trans (a b c : Double) (hab : Double.le a b = true)
    (hbc : Double.le b c = true) : Double.le a c = true := by
  cases a <;> cases b <;> cases c <;> simp_all [Double.le, Double.lt, Double.eq]
  rename_i x y z
  rcases hab with h | h <;> rcases hbc with h2 | h2
  · exact Or.inl (h.trans h2)
  · exact Or.inl (h2 ▸ h)
  · exact Or.inl (h ▸ h2)
  · exact Or.inr (h.trans h2)

theorem Double.le_antisymm (a b : Double) (hab : Double.le a b = true)
    (hba : Double.le b a = true) : Double.eq b a = true := by
  cases a <;> cases b <;> simp_all [Double.le, Double.lt, Double.eq]
  rename_i x y
  rcases hab with h | h <;> rcases hba with h2 | h2
  · exact absurd h (not_lt.mpr h2.le)
  · exact h2
  · exact h.symm
  · exact h2

theorem Double.lt_of_le_of_ne (a b : Double) (hab : Double.le a b = true)
    (hne : Double.eq b a = false) : Double.lt a b = true := by
  cases a <;> cases b <;> simp_all [Double.le, Double.lt, Double.eq]
  rename_i x y
  rcases hab with h | h
  · exact h
  · exact absurd h.symm hne

theorem Double.le_of_lt (a b : Double) (h : Double.lt a b = true) : Double.le a b = true := by
  simp [Double.le, h]

theorem Double.lt_asymm (a b : Double) (h : Double.lt a b = true) : Double.lt b a = false := by
  cases a <;> cases b <;> simp_all [Double.lt]
  exact h.le

theorem Double.ne_of_lt (a b : Double) (h : Double.lt a b = true) : a ≠ b := by
  intro hab
  rw [hab, Double.lt_irrefl] at h
  exact Bool.noConfusion h

/-- A value that passes the guard `x <= 0` is not greater than zero. -/
theorem Double.gt_zero_not_le (x : Double) (h : Double.gt x Double.zero = true) :
    Double.le x Double.zero = false := by
  cases x <;> simp_all [Double.gt, Double.le, Double.lt, Double.eq, Double.zero]
  rename_i q
  exact ⟨h.le, h.ne'⟩

/-! ## Facts about `std::multimap::insert` -/

theorem multimapInsert_split (s : Side) (k v : Double) :
    ∃ front back, s = front ++ back ∧ multimapInsert s k v = front ++ (k, v) :: back := by
  induction s with
  | nil => exact ⟨[], [], rfl, rfl⟩
  | cons e rest ih =>
    unfold multimapInsert
    split
    · exact ⟨[], e :: rest, rfl, rfl⟩
    · obtain ⟨front, back, h1, h2⟩ := ih
      exact ⟨e :: front, back, by rw [h1]; rfl, by rw [h2]; rfl⟩

theorem multimapInsert_perm (s : Side) (k v : Double) :
    (multimapInsert s k v).Perm ((k, v) :: s) := by
  obtain ⟨front, back, h1, h2⟩ := multimapInsert_split s k v
  rw [h2, h1]
  exact List.perm_middle

theorem multimapInsert_append (s : Side) (k v : Double)
    (h : ∀ e ∈ s, Double.lt k e.1 = false) : multimapInsert s k v = s ++ [(k, v)] := by
  induction s with
  | nil => rfl
  | cons e rest ih =>
    have he : Double.lt k e.1 = false := h e (List.mem_cons_self _ _)
    have hrest := ih (fun x hx => h x (List.mem_cons_of_mem _ hx))
    simp [multimapInsert, he, hrest]

theorem multimapInsert_cons (s : Side) (k v : Double)
    (h : ∀ e ∈ s, Double.lt k e.1 = true) : multimapInsert s k v = (k, v) :: s := by
  cases s with
  | nil => rfl
  | cons e rest =>
    have he : Double.lt k e.1 = true := h e (List.mem_cons_self _ _)
    simp [multimapInsert, he]

/-! ## The loops of `aggregateOrders` -/

theorem absorb_eq (price : Double) (it : List Entry) (quantity : Double) :
    absorb price quantity it =
      (((it.takeWhile (fun e => Double.eq e.1 price)).map Prod.snd).foldl Double.add quantity,
        it.dropWhile (fun e => Double.eq e.1 price)) := by
  induction it generalizing quantity with
  | nil => simp [absorb]
  | cons e rest ih =>
    unfold absorb
    by_cases h : Double.eq e.1 price = true
    · simp [h, ih]
    · simp [h]

theorem aggregateLoop_cons (current : Entry) (it : List Entry) (acc : Side) :
    aggregateLoop (current :: it) acc =
      aggregateLoop (it.dropWhile (fun e => Double.eq e.1 current.1))
        (multimapInsert acc current.1
          (((it.takeWhile (fun e => Double.eq e.1 current.1)).map Prod.snd).foldl
            Double.add current.2)) := by
  rw [aggregateLoop, absorb_eq]

/-- Behind the run of `c`, a list sorted by `r` holds no further entry at the
price `c`. -/
theorem dropWhile_no_key (r : Double → Double → Bool)
    (hanti : ∀ a b, r a b = true → r b a = true → Double.eq b a = true)
    (c : Double) (it : List Entry) (hc : ∀ e ∈ it, r c e.1 = true)
    (hpw : it.Pairwise (fun a b => r a.1 b.1 = true)) :
    ∀ e ∈ it.dropWhile (fun e => Double.eq e.1 c), Double.eq e.1 c = false := by
  induction it with
  | nil => simp
  | cons x rest ih =>
    rw [List.pairwise_cons] at hpw
    by_cases hx : Double.eq x.1 c = true
    · rw [List.dropWhile_cons, if_pos hx]
      exact ih (fun e he => hc e (List.mem_cons_of_mem _ he)) hpw.2
    · rw [List.dropWhile_cons, if_neg hx]
      intro e he
      rcases List.mem_cons.mp he with rfl | he
      · simpa using hx
      · by_contra hne
        have heq : Double.eq e.1 c = true := by simpa using hne
        have hec : e.1 = c := ((Double.eq_iff _ _).mp heq).1
        have h1 : r x.1 c = true := hec ▸ hpw.1 e he
        exact hx (hanti c x.1 (hc x (List.mem_cons_self _ _)) h1)

theorem filter_eq_takeWhile (r : Double → Double → Bool)
    (hanti : ∀ a b, r a b = true → r b a = true → Double.eq b a = true)
    (c : Double) (it : List Entry) (hc : ∀ e ∈ it, r c e.1 = true)
    (hpw : it.Pairwise (fun a b => r a.1 b.1 = true)) :
    it.filter (fun e => Double.eq e.1 c) = it.takeWhile (fun e => Double.eq e.1 c) := by
  have hd := dropWhile_no_key r hanti c it hc hpw
  conv_lhs => rw [← List.takeWhile_append_dropWhile (fun e => Double.eq e.1 c) it]
  rw [List.filter_append]
  have h1 : (it.takeWhile (fun e => Double.eq e.1 c)).filter (fun e => Double.eq e.1 c)
      = it.takeWhile (fun e => Double.eq e.1 c) :=
    List.filter_eq_self.mpr
      (fun e he => @List.mem_takeWhile_imp Entry (fun e => Double.eq e.1 c) _ _ he)
  have h2 : (it.dropWhile (fun e => Double.eq e.1 c)).filter (fun e => Double.eq e.1 c) = [] :=
    List.filter_eq_nil_iff.mpr (fun e he => by simp [hd e he])
  rw [h1, h2, List.append_nil]

/-- Entries at another price than `c` survive dropping the run of `c`. -/
theorem filter_dropWhile_other (c p : Double) (hne : p ≠ c) (it : List Entry) :
    (it.dropWhile (fun e => Double.eq e.1 c)).filter (fun e => Double.eq e.1 p)
      = it.filter (fun e => Double.eq e.1 p) := by
  conv_rhs => rw [← List.takeWhile_append_dropWhile (fun e => Double.eq e.1 c) it]
  rw [List.filter_append]
  have h1 : (it.takeWhile (fun e => Double.eq e.1 c)).filter (fun e => Double.eq e.1 p) = [] := by
    refine List.filter_eq_nil_iff.mpr (fun e he => ?_)
    have hec : e.1 = c :=
      ((Double.eq_iff _ _).mp (@List.mem_takeWhile_imp Entry (fun e => Double.eq e.1 c) _ _ he)).1
    intro hep
    exact hne (((Double.eq_iff _ _).mp hep).1.symm.trans hec)
  rw [h1, List.nil_append]

theorem Double.eq_self (a : Double) (h : a ≠ Double.nan) : Double.eq a a = true :=
  (Double.eq_iff a a).mpr ⟨rfl, h⟩

theorem mem_dropWhile_of_not (c : Double) (it : List Entry) (x : Entry) (hx : x ∈ it)
    (hne : Double.eq x.1 c = false) : x ∈ it.dropWhile (fun e => Double.eq e.1 c) := by
  rw [← List.takeWhile_append_dropWhile (fun e => Double.eq e.1 c) it] at hx
  rcases List.mem_append.mp hx with h | h
  · have := @List.mem_takeWhile_imp Entry (fun e => Double.eq e.1 c) _ _ h
    simp [hne] at this
  · exact h

/-- On a list sorted by `r` (ascending or descending) without NaN keys the
loop inserts, in visiting order, one entry per price, holding the quantities
at that price added up in visiting order. -/
theorem aggregateLoop_sorted (r : Double → Double → Bool)
    (hanti : ∀ a b, r a b = true → r b a = true → Double.eq b a = true) :
    ∀ (n : Nat) (it : List Entry), it.length ≤ n → (∀ e ∈ it, e.1 ≠ Double.nan) →
      it.Pairwise (fun a b => r a.1 b.1 = true) →
      ∃ G : List Entry,
        (∀ acc, aggregateLoop it acc = G.foldl (fun a e => multimapInsert a e.1 e.2) acc) ∧
        G.Pairwise (fun a b => r a.1 b.1 = true ∧ a.1 ≠ b.1) ∧
        (∀ p, p ∈ G.map Prod.fst ↔ p ∈ it.map Prod.fst) ∧
        (∀ e ∈ G, e.2 = quantityAt it e.1) := by
  intro n
  induction n with
  | zero =>
    intro it hlen _ _
    have hnil : it = [] := List.length_eq_zero.mp (Nat.le_zero.mp hlen)
    subst hnil
    exact ⟨[], fun acc => by rw [aggregateLoop]; rfl, List.Pairwise.nil, fun p => Iff.rfl,
      fun e he => absurd he (List.not_mem_nil e)⟩
  | succ n ih =>
    intro it hlen hnan hpw
    cases it with
    | nil =>
      exact ⟨[], fun acc => by rw [aggregateLoop]; rfl, List.Pairwise.nil, fun p => Iff.rfl,
        fun e he => absurd he (List.not_mem_nil e)⟩
    | cons c rest =>
      rw [List.pairwise_cons] at hpw
      have hsub : (rest.dropWhile (fun e => Double.eq e.1 c.1)).Sublist rest :=
        List.dropWhile_sublist _
      have hcnan : c.1 ≠ Double.nan := hnan c (List.mem_cons_self _ _)
      have hlen' : (rest.dropWhile (fun e => Double.eq e.1 c.1)).length ≤ n :=
        Nat.le_trans hsub.length_le (Nat.le_of_succ_le_succ hlen)
      obtain ⟨G, hG1, hG2, hG3, hG4⟩ := ih _ hlen'
        (fun e he => hnan e (List.mem_cons_of_mem _ (hsub.subset he))) (hpw.2.sublist hsub)
      have hdrop := dropWhile_no_key r hanti c.1 rest hpw.1 hpw.2
      -- keys of the merged tail differ from the current price
      have hkey : ∀ e ∈ G, r c.1 e.1 = true ∧ c.1 ≠ e.1 := by
        intro e he
        have hmem : e.1 ∈ G.map Prod.fst := List.mem_map_of_mem _ he
        rw [hG3] at hmem
        obtain ⟨x, hx, hxe⟩ := List.mem_map.mp hmem
        refine ⟨hxe ▸ hpw.1 x (hsub.subset hx), fun hce => ?_⟩
        have h1 := hdrop x hx
        rw [hxe, ← hce, Double.eq_self c.1 hcnan] at h1
        exact Bool.noConfusion h1
      refine ⟨(c.1, ((rest.takeWhile (fun e => Double.eq e.1 c.1)).map Prod.snd).foldl
        Double.add c.2) :: G, ?_, ?_, ?_, ?_⟩
      · intro acc
        rw [aggregateLoop_cons, hG1, List.foldl_cons]
      · exact List.pairwise_cons.mpr ⟨hkey, hG2⟩
      · intro p
        simp only [List.map_cons, List.mem_cons]
        constructor
        · rintro (h | h)
          · exact Or.inl h
          · rw [hG3] at h
            obtain ⟨x, hx, hxe⟩ := List.mem_map.mp h
            exact Or.inr (List.mem_map.mpr ⟨x, hsub.subset hx, hxe⟩)
        · rintro (h | h)
          · exact Or.inl h
          · obtain ⟨x, hx, hxe⟩ := List.mem_map.mp h
            by_cases hxc : Double.eq x.1 c.1 = true
            · exact Or.inl (hxe ▸ ((Double.eq_iff _ _).mp hxc).1)
            · right
              rw [hG3]
              exact List.mem_map.mpr
                ⟨x, mem_dropWhile_of_not c.1 rest x hx (by simpa using hxc), hxe⟩
      · intro e he
        rcases List.mem_cons.mp he with rfl | he
        · simp only [quantityAt]
          rw [List.filter_cons, if_pos (Double.eq_self c.1 hcnan),
            filter_eq_takeWhile r hanti c.1 rest hpw.1 hpw.2, List.map_cons, accumulate]
        · have hne := (hkey e he).2
          have hce : Double.eq c.1 e.1 = false := by
            cases hb : Double.eq c.1 e.1
            · rfl
            · exact absurd ((Double.eq_iff _ _).mp hb).1 hne
          rw [hG4 e he]
          simp only [quantityAt]
          rw [filter_dropWhile_other c.1 e.1 (fun h => hne h.symm) rest, List.filter_cons, hce]
          simp

theorem foldl_insert_ascending (G : List Entry) :
    ∀ acc : Side, G.Pairwise (fun a b => Double.lt a.1 b.1 = true) →
      (∀ a ∈ acc, ∀ e ∈ G, Double.lt a.1 e.1 = true) →
      G.foldl (fun a e => multimapInsert a e.1 e.2) acc = acc ++ G := by
  induction G with
  | nil => intro acc _ _; simp
  | cons g G ih =>
    intro acc hpw hacc
    rw [List.pairwise_cons] at hpw
    rw [List.foldl_cons, multimapInsert_append acc g.1 g.2
      (fun e he => Double.lt_asymm _ _ (hacc e he g (List.mem_cons_self _ _)))]
    rw [ih (acc ++ [(g.1, g.2)]) hpw.2]
    · simp
    · intro a ha e he
      rcases List.mem_append.mp ha with h | h
      · exact hacc a h e (List.mem_cons_of_mem _ he)
      · rw [List.mem_singleton] at h
        subst h
        exact hpw.1 e he

theorem foldl_insert_descending (G : List Entry) :
    ∀ acc : Side, G.Pairwise (fun a b => Double.lt b.1 a.1 = true) →
      (∀ a ∈ acc, ∀ e ∈ G, Double.lt e.1 a.1 = true) →
      G.foldl (fun a e => multimapInsert a e.1 e.2) acc = G.reverse ++ acc := by
  induction G with
  | nil => intro acc _ _; simp
  | cons g G ih =>
    intro acc hpw hacc
    rw [List.pairwise_cons] at hpw
    rw [List.foldl_cons, multimapInsert_cons acc g.1 g.2
      (fun e he => hacc e he g (List.mem_cons_self _ _))]
    rw [ih ((g.1, g.2) :: acc) hpw.2]
    · simp
    · intro a ha e he
      rcases List.mem_cons.mp ha with h | h
      · subst h
        exact hpw.1 e he
      · exact hacc a h e (List.mem_cons_of_mem _ he)

theorem isAggregationOf_of_keys (t s : Side)
    (hpw : t.Pairwise (fun a b => a.1 ≠ b.1))
    (hmem : ∀ p, p ∈ t.map Prod.fst ↔ p ∈ s.map Prod.fst)
    (hsum : ∀ e ∈ t, e.2 = quantityAt s e.1) : Side.IsAggregationOf t s := by
  have hnd : (t.map Prod.fst).Nodup := List.pairwise_map.mpr hpw
  refine ⟨hnd, hmem, hsum, ?_⟩
  have hperm : (t.map Prod.fst).Perm (s.map Prod.fst).dedup :=
    (List.perm_ext_iff_of_nodup hnd (List.nodup_dedup _)).mpr
      (fun a => by rw [List.mem_dedup]; exact hmem a)
  simpa using hperm.length_eq

/-- Aggregation of the Ask side: the new side is strictly ascending and is the
aggregation of the old one. -/
theorem aggregate_ask_side (s : Side) (h : s.WF) :
    (aggregateLoop s []).Pairwise (fun a b => Double.lt a.1 b.1 = true) ∧
      Side.IsAggregationOf (aggregateLoop s []) s := by
  obtain ⟨G, hG1, hG2, hG3, hG4⟩ := aggregateLoop_sorted Double.le
    (fun a b hab hba => Double.le_antisymm a b hab hba) s.length s (Nat.le_refl _) h.1 h.2
  have hlt : G.Pairwise (fun a b => Double.lt a.1 b.1 = true) :=
    hG2.imp (fun {a b} hab => Double.lt_of_le_of_ne _ _ hab.1 (by
      cases hb : Double.eq b.1 a.1
      · rfl
      · exact absurd ((Double.eq_iff _ _).mp hb).1.symm hab.2))
  have heq : aggregateLoop s [] = G := by
    rw [hG1, foldl_insert_ascending G [] hlt (fun a ha => absurd ha (List.not_mem_nil a))]
    rfl
  rw [heq]
  exact ⟨hlt, isAggregationOf_of_keys G s (hG2.imp (fun {a b} hab => hab.2)) hG3 hG4⟩

/-- Aggregation of the Bid side, visited from `rbegin()`. -/
theorem aggregate_bid_side (s : Side) (h : s.WF) :
    (aggregateLoop s.reverse []).Pairwise (fun a b => Double.lt a.1 b.1 = true) ∧
      Side.IsAggregationOf (aggregateLoop s.reverse []) s.reverse := by
  obtain ⟨G, hG1, hG2, hG3, hG4⟩ := aggregateLoop_sorted (fun a b => Double.le b a)
    (fun a b hab hba => Double.le_antisymm a b hba hab) s.reverse.length s.reverse (Nat.le_refl _)
    (fun e he => h.1 e (List.mem_reverse.mp he)) (List.pairwise_reverse.mpr h.2)
  have hgt : G.Pairwise (fun a b => Double.lt b.1 a.1 = true) :=
    hG2.imp (fun {a b} hab => Double.lt_of_le_of_ne _ _ hab.1 (by
      cases hb : Double.eq a.1 b.1
      · rfl
      · exact absurd ((Double.eq_iff _ _).mp hb).1 hab.2))
  have heq : aggregateLoop s.reverse [] = G.reverse := by
    rw [hG1, foldl_insert_descending G [] hgt (fun a ha => absurd ha (List.not_mem_nil a))]
    simp
  rw [heq]
  refine ⟨List.pairwise_reverse.mpr hgt, ?_⟩
  refine isAggregationOf_of_keys G.reverse s.reverse
    (List.pairwise_reverse.mpr (hG2.imp (fun {a b} hab => fun hba => hab.2 hba.symm))) ?_ ?_
  · intro p
    rw [List.map_reverse, List.mem_reverse, hG3]
  · intro e he
    rw [hG4 e (List.mem_reverse.mp he)]

/-- Without two entries at one price every run has length one and the loop
re-inserts the entries as they are. -/
theorem aggregateLoop_distinct (it : List Entry) :
    ∀ acc : Side, it.Pairwise (fun a b => a.1 ≠ b.1) →
      aggregateLoop it acc = it.foldl (fun a e => multimapInsert a e.1 e.2) acc := by
  induction it with
  | nil => intro acc _; rw [aggregateLoop]; rfl
  | cons c rest ih =>
    intro acc hpw
    rw [List.pairwise_cons] at hpw
    have hdrop : rest.dropWhile (fun e => Double.eq e.1 c.1) = rest := by
      cases rest with
      | nil => rfl
      | cons x xs =>
        have hx : ¬ Double.eq x.1 c.1 = true := fun hx =>
          hpw.1 x (List.mem_cons_self _ _) ((Double.eq_iff _ _).mp hx).1.symm
        rw [List.dropWhile_cons, if_neg hx]
    have htake : rest.takeWhile (fun e => Double.eq e.1 c.1) = [] := by
      cases rest with
      | nil => rfl
      | cons x xs =>
        have hx : ¬ Double.eq x.1 c.1 = true := fun hx =>
          hpw.1 x (List.mem_cons_self _ _) ((Double.eq_iff _ _).mp hx).1.symm
        rw [List.takeWhile_cons, if_neg hx]
    rw [aggregateLoop_cons, hdrop, htake, ih _ hpw.2]
    simp

theorem aggregateLoop_strictly_ascending (s : Side)
    (h : s.Pairwise (fun a b => Double.lt a.1 b.1 = true)) : aggregateLoop s [] = s := by
  rw [aggregateLoop_distinct s [] (h.imp (fun {a b} hab => Double.ne_of_lt _ _ hab)),
    foldl_insert_ascending s [] h (fun a ha => absurd ha (List.not_mem_nil a))]
  rfl

theorem aggregateLoop_reverse_strictly_ascending (s : Side)
    (h : s.Pairwise (fun a b => Double.lt a.1 b.1 = true)) :
    aggregateLoop s.reverse [] = s := by
  have hrev : s.reverse.Pairwise (fun a b => Double.lt b.1 a.1 = true) :=
    List.pairwise_reverse.mpr h
  rw [aggregateLoop_distinct s.reverse []
      (hrev.imp (fun {a b} hab => fun hne => Double.ne_of_lt _ _ hab hne.symm)),
    foldl_insert_descending s.reverse [] hrev (fun a ha => absurd ha (List.not_mem_nil a))]
  simp

/-! ## Insertion -/

theorem multimapInsert_length (s : Side) (k v : Double) :
    (multimapInsert s k v).length = s.length + 1 := by
  rw [(multimapInsert_perm s k v).length_eq, List.length_cons]

/-- C1: for a price and a quantity greater than zero `addBid` leaves the Ask
side as it is and puts exactly one new entry `(price, quantity)` into the Bid
side: the old Bid side is split at some position and the new entry is placed
there, the entry count grows by one, and the new Bid side is, as a multiset,
the old one plus the one entry `(price, quantity)` (entries at the same price
are kept, nothing is merged).  `addAsk` does the same with the sides swapped. -/
theorem addBid_addAsk_valid (ob : OrderBook) (price quantity : Double)
    (hp : Double.gt price Double.zero = true) (hq : Double.gt quantity Double.zero = true) :
    ((addBid ob price quantity).1.ask = ob.ask ∧
      (∃ front back, ob.bid = front ++ back ∧
        (addBid ob price quantity).1.bid = front ++ (price, quantity) :: back) ∧
      (addBid ob price quantity).1.bid.length = ob.bid.length + 1 ∧
      (addBid ob price quantity).1.bid.Perm ((price, quantity) :: ob.bid)) ∧
    ((addAsk ob price quantity).1.bid = ob.bid ∧
      (∃ front back, ob.ask = front ++ back ∧
        (addAsk ob price quantity).1.ask = front ++ (price, quantity) :: back) ∧
      (addAsk ob price quantity).1.ask.length = ob.ask.length + 1 ∧
      (addAsk ob price quantity).1.ask.Perm ((price, quantity) :: ob.ask)) := by
  have h1 := Double.gt_zero_not_le price hp
  have h2 := Double.gt_zero_not_le quantity hq
  have hbid : addBid ob price quantity
      = ({ ob with bid := multimapInsert ob.bid price quantity }, []) := by
    simp [addBid, h1, h2]
  have hask : addAsk ob price quantity
      = ({ ob with ask := multimapInsert ob.ask price quantity }, []) := by
    simp [addAsk, h1, h2]
  rw [hbid, hask]
  exact ⟨⟨rfl, multimapInsert_split _ _ _, multimapInsert_length _ _ _,
      multimapInsert_perm _ _ _⟩,
    ⟨rfl, multimapInsert_split _ _ _, multimapInsert_length _ _ _,
      multimapInsert_perm _ _ _⟩⟩

/-- C2: when the price or the quantity is `<= 0`, `addBid` and `addAsk` return
(the model functions are total) and the order book they return is the one they
were given: both sides are unchanged. -/
theorem addBid_addAsk_invalid (ob : OrderBook) (price quantity : Double)
    (h : Double.le price Double.zero = true ∨ Double.le quantity Double.zero = true) :
    (addBid ob price quantity).1 = ob ∧ (addAsk ob price quantity).1 = ob := by
  have hg : (Double.le price Double.zero || Double.le quantity Double.zero) = true := by
    rcases h with h | h <;> simp [h]
  simp [addBid, addAsk, hg]

/-! ## Aggregation -/

/-- C3 (amended): on an order book whose sides satisfy the multimap invariant
(prices in order, no NaN price), `aggregateOrders` leaves on each side exactly
one entry per price the side held before and none at another price; the
quantity of that entry is the binary64 sum of the quantities the side held at
that price, added up in visiting order (the Bid side from its last entry
backwards, the Ask side from its first entry forwards); the number of entries
is the number of distinct prices before. -/
theorem aggregateOrders_aggregates (ob : OrderBook) (hb : ob.bid.WF) (ha : ob.ask.WF) :
    Side.IsAggregationOf (aggregateOrders ob).bid ob.bid.reverse ∧
      Side.IsAggregationOf (aggregateOrders ob).ask ob.ask :=
  ⟨(aggregate_bid_side ob.bid hb).2, (aggregate_ask_side ob.ask ha).2⟩

/-- Under the multimap invariant `aggregateOrders` is idempotent. -/
theorem aggregateOrders_idempotent (ob : OrderBook) (hb : ob.bid.WF) (ha : ob.ask.WF) :
    aggregateOrders (aggregateOrders ob) = aggregateOrders ob := by
  have h1 := aggregateLoop_reverse_strictly_ascending _ (aggregate_bid_side ob.bid hb).1
  have h2 := aggregateLoop_strictly_ascending _ (aggregate_ask_side ob.ask ha).1
  simp only [aggregateOrders, h1, h2]

/-- C3 (counterexample): three valid `addBid` and three valid `addAsk` calls
at the price 100 with the quantities `1e16` (a binary64 number), `1`, `1` give
an order book that satisfies the multimap invariant and whose aggregated Ask
entry holds `1e16`, while the aggregated Bid entry, built from the same three
quantities, holds `1e16 + 2`; the sum of the three quantities is `1e16 + 2`.
And after `addAsk(5, 1)`, `addAsk(NaN, 1)`, `addAsk(5, 2)`, which all pass the
guard, `aggregateOrders` leaves two entries at the price 5 on the Ask side. -/
theorem aggregateOrders_sum_rounded :
    Double.round64 10000000000000000 = Double.fin 10000000000000000 ∧
    (addAsk (addAsk (addAsk (addBid (addBid (addBid OrderBook.new
        (Double.fin 100) (Double.fin 10000000000000000)).1
        (Double.fin 100) (Double.fin 1)).1 (Double.fin 100) (Double.fin 1)).1
        (Double.fin 100) (Double.fin 10000000000000000)).1
        (Double.fin 100) (Double.fin 1)).1 (Double.fin 100) (Double.fin 1)).1 = roundingBook ∧
      roundingBook.bid.WF ∧ roundingBook.ask.WF ∧
      (aggregateOrders roundingBook).ask = [(Double.fin 100, Double.fin 10000000000000000)] ∧
      (aggregateOrders roundingBook).bid = [(Double.fin 100, Double.fin 10000000000000002)] ∧
      (10000000000000000 + 1 + 1 : ℚ) ≠ 10000000000000000 ∧
      (addAsk (addAsk (addAsk OrderBook.new (Double.fin 5) (Double.fin 1)).1
        Double.nan (Double.fin 1)).1 (Double.fin 5) (Double.fin 2)).1 = splitBook ∧
      (aggregateOrders splitBook).ask
        = [(Double.fin 5, Double.fin 1), (Double.nan, Double.fin 1),
            (Double.fin 5, Double.fin 2)] := by
  have h1e16 : Double.round64 10000000000000000 = Double.fin 10000000000000000 := by
    have h := Double.round64_scaled 152587890625 16 (by norm_num) (by norm_num) (by norm_num)
    norm_num at h
    exact h
  have h2 : Double.add (Double.fin 1) (Double.fin 1) = Double.fin 2 := by
    have h := Double.add_small 1 1 (by norm_num) (by norm_num)
    norm_num at h
    exact h
  have h3 : Double.add (Double.fin 2) (Double.fin 10000000000000000)
      = Double.fin 10000000000000002 := by
    have h := Double.round64_scaled 5000000000000001 1 (by norm_num) (by norm_num) (by norm_num)
    rw [Double.add_fin]
    norm_num at h ⊢
    exact h
  refine ⟨h1e16, by decide, by unfold Side.WF; decide, by unfold Side.WF; decide, ?_, ?_,
    by norm_num, by decide, ?_⟩
  · simp [aggregateOrders, roundingBook, aggregateLoop, absorb, multimapInsert, Double.eq,
      Double.add_1e16_1]
  · simp [aggregateOrders, roundingBook, aggregateLoop, absorb, multimapInsert, Double.eq,
      h2, h3]
  · simp [aggregateOrders, splitBook, aggregateLoop, absorb, multimapInsert, Double.eq,
      Double.lt]

/-- C4 (failing input): after `addBid(NaN, 1)`, `addBid(NaN, 2)`,
`addBid(100, 3)`, which all pass the guard, a second `aggregateOrders` changes
the Bid side the first one has left. -/
theorem aggregateOrders_twice_nan_price :
    (addBid (addBid (addBid OrderBook.new Double.nan (Double.fin 1)).1
        Double.nan (Double.fin 2)).1 (Double.fin 100) (Double.fin 3)).1 = nanBook ∧
      (aggregateOrders nanBook).bid
        = [(Double.fin 100, Double.fin 3), (Double.nan, Double.fin 2),
            (Double.nan, Double.fin 1)] ∧
      (aggregateOrders (aggregateOrders nanBook)).bid
        = [(Double.nan, Double.fin 1), (Double.nan, Double.fin 2),
            (Double.fin 100, Double.fin 3)] ∧
      aggregateOrders (aggregateOrders nanBook) ≠ aggregateOrders nanBook := by
  have h1 : (aggregateOrders nanBook).bid
      = [(Double.fin 100, Double.fin 3), (Double.nan, Double.fin 2),
          (Double.nan, Double.fin 1)] := by
    simp [aggregateOrders, nanBook, aggregateLoop, absorb, multimapInsert, Double.eq, Double.lt]
  have h2 : (aggregateOrders (aggregateOrders nanBook)).bid
      = [(Double.nan, Double.fin 1), (Double.nan, Double.fin 2),
          (Double.fin 100, Double.fin 3)] := by
    simp [aggregateOrders, nanBook, aggregateLoop, absorb, multimapInsert, Double.eq, Double.lt]
  refine ⟨by decide, h1, h2, fun h => ?_⟩
  have h3 := congrArg OrderBook.bid h
  rw [h1, h2] at h3
  exact absurd h3 (by decide)

/-! ## Display -/

theorem takeWhile_append_zeros (d : List Byte) (k : Nat) :
    (d ++ List.replicate k (0 : Byte)).takeWhile (fun c => c ≠ 0)
      = d.takeWhile (fun c => c ≠ 0) := by
  induction d with
  | nil => cases k <;> simp [List.replicate_succ]
  | cons x rest ih =>
    by_cases hx : x = 0
    · simp [hx]
    · simp only [List.cons_append, List.takeWhile_cons, hx, ne_eq, not_false_eq_true,
        decide_True, if_true, ih]

/-- The request string is the part of the delivered bytes in front of their
first zero byte; it is defined when the bytes hold a zero byte or do not fill
the buffer. -/
theorem cString_fillBuffer (payload : List Byte)
    (hz : (0 : Byte) ∈ payload.take bufferSize ∨ payload.length < bufferSize) :
    cString (fillBuffer payload)
      = some ((payload.take bufferSize).takeWhile (fun c => c ≠ 0)) := by
  have hmem : (0 : Byte) ∈ fillBuffer payload := by
    unfold fillBuffer
    rcases hz with h | h
    · exact List.mem_append_left _ h
    · refine List.mem_append_right _ (List.mem_replicate.mpr ⟨?_, rfl⟩)
      rw [List.length_take]
      omega
  unfold cString
  rw [if_pos hmem]
  unfold fillBuffer
  rw [takeWhile_append_zeros]

theorem cString_keyword (kw rest : List Byte) (hlen : kw.length < bufferSize)
    (hnz : ∀ c ∈ kw, c ≠ 0) :
    cString (fillBuffer kw) = some kw ∧ cString (fillBuffer (kw ++ 0 :: rest)) = some kw := by
  have htw : kw.takeWhile (fun c => c ≠ 0) = kw :=
    List.takeWhile_eq_self_iff.mpr (fun c hc => by simpa using hnz c hc)
  constructor
  · rw [cString_fillBuffer kw (Or.inr hlen), List.take_of_length_le (Nat.le_of_lt hlen), htw]
  · have htake : (kw ++ 0 :: rest).take bufferSize
        = kw ++ 0 :: rest.take (bufferSize - kw.length - 1) := by
      rw [List.take_append_eq_append_take, List.take_of_length_le (Nat.le_of_lt hlen),
        List.take_cons (by omega)]
    rw [cString_fillBuffer _ (Or.inl (by rw [htake]; simp)), htake,
      List.takeWhile_append_of_pos (fun c hc => by simpa using hnz c hc)]
    simp

theorem ascii_insertBid :
    ascii "insertBid" = [105, 110, 115, 101, 114, 116, 66, 105, 100] := by decide

theorem ascii_insertAsk :
    ascii "insertAsk" = [105, 110, 115, 101, 114, 116, 65, 115, 107] := by decide

theorem ascii_displayOrderBook :
    ascii "displayOrderBook"
      = [100, 105, 115, 112, 108, 97, 121, 79, 114, 100, 101, 114, 66, 111, 111, 107] := by
  decide

theorem ascii_cancelOrder :
    ascii "cancelOrder" = [99, 97, 110, 99, 101, 108, 79, 114, 100, 101, 114] := by decide

/-- The keywords fit into the buffer and hold no zero byte. -/
theorem keywords_plain :
    ((ascii "insertBid").length < bufferSize ∧ ∀ c ∈ ascii "insertBid", c ≠ 0) ∧
    ((ascii "insertAsk").length < bufferSize ∧ ∀ c ∈ ascii "insertAsk", c ≠ 0) ∧
    ((ascii "displayOrderBook").length < bufferSize ∧
      ∀ c ∈ ascii "displayOrderBook", c ≠ 0) := by
  rw [ascii_insertBid, ascii_insertAsk, ascii_displayOrderBook]
  refine ⟨⟨?_, ?_⟩, ⟨?_, ?_⟩, ⟨?_, ?_⟩⟩ <;> simp [bufferSize]

/-- C7 (amended): a payload that has a zero byte among its first 1024 bytes
or is shorter than 1024 bytes, and whose bytes in front of the first zero byte
are none of the three keywords, leaves the order book as it is and prints
nothing. -/
theorem handleReadable_unrecognised (ob : OrderBook) (payload : List Byte)
    (hz : (0 : Byte) ∈ payload.take bufferSize ∨ payload.length < bufferSize)
    (h1 : (payload.take bufferSize).takeWhile (fun c => c ≠ 0) ≠ ascii "insertBid")
    (h2 : (payload.take bufferSize).takeWhile (fun c => c ≠ 0) ≠ ascii "insertAsk")
    (h3 : (payload.take bufferSize).takeWhile (fun c => c ≠ 0) ≠ ascii "displayOrderBook") :
    handleReadable ob (ReadResult.data payload) = some (ob, []) := by
  simp only [handleReadable, cString_fillBuffer payload hz, dispatch, if_neg h1, if_neg h2,
    if_neg h3]

/-- C7 (witness): the payload `cancelOrder` is a no-op on the sample order
book. -/
theorem handleReadable_unrecognised_witness :
    (ascii "cancelOrder").length < bufferSize ∧
      handleReadable sampleBook (ReadResult.data (ascii "cancelOrder"))
        = some (sampleBook, []) :=
  ⟨by rw [ascii_cancelOrder]; decide,
    handleReadable_unrecognised sampleBook (ascii "cancelOrder")
      (Or.inr (by rw [ascii_cancelOrder]; decide))
      (by rw [ascii_cancelOrder, ascii_insertBid]; decide)
      (by rw [ascii_cancelOrder, ascii_insertAsk]; decide)
      (by rw [ascii_cancelOrder, ascii_displayOrderBook]; decide)⟩

/-- C7 (counterexample): the ten bytes `insertBid` followed by a zero byte are
none of the three keywords, yet the dispatch inserts a bid into the empty
order book. -/
theorem handleReadable_keyword_zero_suffix :
    (ascii "insertBid" ++ [0]).length ≤ bufferSize ∧
      ascii "insertBid" ++ [0] ≠ ascii "insertBid" ∧
      ascii "insertBid" ++ [0] ≠ ascii "insertAsk" ∧
      ascii "insertBid" ++ [0] ≠ ascii "displayOrderBook" ∧
      handleReadable OrderBook.new (ReadResult.data (ascii "insertBid" ++ [0]))
        = some ({ bid := [(Double.fin 150, Double.fin 10)], ask := [],
                  is_operational := true }, []) := by
  refine ⟨by rw [ascii_insertBid]; decide, by rw [ascii_insertBid]; decide,
    by rw [ascii_insertBid, ascii_insertAsk]; decide,
    by rw [ascii_insertBid, ascii_displayOrderBook]; decide, ?_⟩
  simp only [handleReadable,
    (cString_keyword (ascii "insertBid") [] keywords_plain.1.1 keywords_plain.1.2).2,
    dispatch, if_true]
  decide

/-- C8: the request `insertBid`, alone or followed by a zero byte and any
further bytes, has the effect of `addBid(150.0, 10.0)`, which puts one new
entry into the Bid side and leaves the Ask side; `insertAsk` has the effect of
`addAsk(155.0, 10.0)`, which puts one new entry into the Ask side and leaves
the Bid side; `displayOrderBook` runs `displayOrderBook`, which returns the
order book unchanged. -/
theorem dispatch_recognised (ob : OrderBook) (rest : List Byte) :
    (handleReadable ob (ReadResult.data (ascii "insertBid"))
        = some (addBid ob (Double.fin 150) (Double.fin 10)) ∧
      handleReadable ob (ReadResult.data (ascii "insertBid" ++ 0 :: rest))
        = some (addBid ob (Double.fin 150) (Double.fin 10)) ∧
      addBid ob (Double.fin 150) (Double.fin 10)
        = ({ ob with bid := multimapInsert ob.bid (Double.fin 150) (Double.fin 10) }, []) ∧
      (multimapInsert ob.bid (Double.fin 150) (Double.fin 10)).Perm
        ((Double.fin 150, Double.fin 10) :: ob.bid)) ∧
    (handleReadable ob (ReadResult.data (ascii "insertAsk"))
        = some (addAsk ob (Double.fin 155) (Double.fin 10)) ∧
      handleReadable ob (ReadResult.data (ascii "insertAsk" ++ 0 :: rest))
        = some (addAsk ob (Double.fin 155) (Double.fin 10)) ∧
      addAsk ob (Double.fin 155) (Double.fin 10)
        = ({ ob with ask := multimapInsert ob.ask (Double.fin 155) (Double.fin 10) }, []) ∧
      (multimapInsert ob.ask (Double.fin 155) (Double.fin 10)).Perm
        ((Double.fin 155, Double.fin 10) :: ob.ask)) ∧
    (handleReadable ob (ReadResult.data (ascii "displayOrderBook"))
        = some (displayOrderBook ob) ∧
      handleReadable ob (ReadResult.data (ascii "displayOrderBook" ++ 0 :: rest))
        = some (displayOrderBook ob) ∧
      (displayOrderBook ob).1 = ob) := by
  have hb := cString_keyword (ascii "insertBid") rest keywords_plain.1.1 keywords_plain.1.2
  have ha := cString_keyword (ascii "insertAsk") rest keywords_plain.2.1.1 keywords_plain.2.1.2
  have hd := cString_keyword (ascii "displayOrderBook") rest keywords_plain.2.2.1
    keywords_plain.2.2.2
  have hab : ascii "insertAsk" ≠ ascii "insertBid" := by
    rw [ascii_insertBid, ascii_insertAsk]; decide
  have hdb : ascii "displayOrderBook" ≠ ascii "insertBid" := by
    rw [ascii_insertBid, ascii_displayOrderBook]; decide
  have hda : ascii "displayOrderBook" ≠ ascii "insertAsk" := by
    rw [ascii_insertAsk, ascii_displayOrderBook]; decide
  have hgb : (Double.le (Double.fin 150) Double.zero || Double.le (Double.fin 10) Double.zero)
      = false := by decide
  have hga : (Double.le (Double.fin 155) Double.zero || Double.le (Double.fin 10) Double.zero)
      = false := by decide
  refine ⟨⟨?_, ?_, ?_, multimapInsert_perm _ _ _⟩, ⟨?_, ?_, ?_, multimapInsert_perm _ _ _⟩,
    ⟨?_, ?_, rfl⟩⟩
  · simp only [handleReadable, hb.1, dispatch, if_true]
  · simp only [handleReadable, hb.2, dispatch, if_true]
  · simp [addBid, hgb]
  · simp only [handleReadable, ha.1, dispatch, if_neg hab, if_true]
  · simp only [handleReadable, ha.2, dispatch, if_neg hab, if_true]
  · simp [addAsk, hga]
  · simp only [handleReadable, hd.1, dispatch, if_neg hdb, if_neg hda, if_true]
  · simp only [handleReadable, hd.2, dispatch, if_neg hdb, if_neg hda, if_true]

/-- C6 (failing input): `addBid(100.0, NaN)` on the empty order book passes the
guard, because `NaN <= 0` is false, and stores an entry whose quantity is not
greater than zero. -/
theorem addBid_stores_nan_quantity :
    addBid OrderBook.new (Double.fin 100) Double.nan
        = ({ bid := [(Double.fin 100, Double.nan)], ask := [], is_operational := true }, []) ∧
      Double.gt Double.nan Double.zero = false := by
  decide

/-! ## End to end: repeated `insertBid`, display, aggregation -/

theorem Double.le_of_not_lt (a b : Double) (ha : a ≠ Double.nan) (hb : b ≠ Double.nan)
    (h : Double.lt a b = false) : Double.le b a = true := by
  cases a <;> cases b <;> simp_all [Double.le, Double.lt, Double.eq]
  rename_i x y
  exact lt_or_eq_of_le h

theorem multimapInsert_WF (s : Side) (k v : Double) (hs : s.WF) (hk : k ≠ Double.nan) :
    Side.WF (multimapInsert s k v) := by
  induction s with
  | nil => exact ⟨fun e he => by rw [List.mem_singleton.mp he]; exact hk, List.pairwise_singleton _ _⟩
  | cons x rest ih =>
    have hrest : Side.WF rest :=
      ⟨fun e he => hs.1 e (List.mem_cons_of_mem _ he), (List.pairwise_cons.mp hs.2).2⟩
    have hx := (List.pairwise_cons.mp hs.2).1
    unfold multimapInsert
    split
    · rename_i hlt
      refine ⟨fun e he => ?_, List.pairwise_cons.mpr ⟨fun e he => ?_, hs.2⟩⟩
      · rcases List.mem_cons.mp he with rfl | he
        · exact hk
        · exact hs.1 e he
      · rcases List.mem_cons.mp he with rfl | he
        · exact Double.le_of_lt _ _ hlt
        · exact Double.le_trans _ _ _ (Double.le_of_lt _ _ hlt) (hx e he)
    · rename_i hlt
      have hxk : Double.le x.1 k = true :=
        Double.le_of_not_lt k x.1 hk (hs.1 x (List.mem_cons_self _ _)) (by simpa using hlt)
      have ih' := ih hrest
      refine ⟨fun e he => ?_, List.pairwise_cons.mpr ⟨fun e he => ?_, ih'.2⟩⟩
      · rcases List.mem_cons.mp he with rfl | he
        · exact hs.1 e (List.mem_cons_self _ _)
        · exact ih'.1 e he
      · rcases List.mem_cons.mp ((multimapInsert_perm rest k v).subset he) with rfl | he
        · exact hxk
        · exact hx e he

/-- The sides of the empty order book satisfy the multimap invariant, and
`addBid`, `addAsk` with a price that is not NaN and `aggregateOrders` keep it. -/
theorem invariant_kept (ob : OrderBook) (price quantity : Double) (hb : ob.bid.WF)
    (ha : ob.ask.WF) (hp : price ≠ Double.nan) :
    (Side.WF OrderBook.new.bid ∧ Side.WF OrderBook.new.ask) ∧
    (Side.WF (addBid ob price quantity).1.bid ∧ Side.WF (addBid ob price quantity).1.ask) ∧
    (Side.WF (addAsk ob price quantity).1.bid ∧ Side.WF (addAsk ob price quantity).1.ask) ∧
    (Side.WF (aggregateOrders ob).bid ∧ Side.WF (aggregateOrders ob).ask) := by
  have hnil : Side.WF [] := ⟨fun e he => absurd he (List.not_mem_nil e), List.Pairwise.nil⟩
  have hagg : ∀ t s : Side, (∀ e ∈ s, e.1 ≠ Double.nan) →
      t.Pairwise (fun a b => Double.lt a.1 b.1 = true) →
      Side.IsAggregationOf t s → Side.WF t := by
    intro t s hs hlt hts
    refine ⟨fun e he => ?_, hlt.imp (fun {a b} hab => Double.le_of_lt _ _ hab)⟩
    obtain ⟨x, hx, hxe⟩ := List.mem_map.mp ((hts.2.1 e.1).mp (List.mem_map_of_mem _ he))
    exact hxe ▸ hs x hx
  refine ⟨⟨hnil, hnil⟩, ?_, ?_, ?_⟩
  · unfold addBid
    split
    · exact ⟨hb, ha⟩
    · exact ⟨multimapInsert_WF _ _ _ hb hp, ha⟩
  · unfold addAsk
    split
    · exact ⟨hb, ha⟩
    · exact ⟨hb, multimapInsert_WF _ _ _ ha hp⟩
  · exact ⟨hagg _ _ (fun e he => hb.1 e (List.mem_reverse.mp he))
        (aggregate_bid_side ob.bid hb).1 (aggregate_bid_side ob.bid hb).2,
      hagg _ _ ha.1 (aggregate_ask_side ob.ask ha).1 (aggregate_ask_side ob.ask ha).2⟩

/-! ## Positivity -/

theorem Double.gt_zero_of_not_le (x : Double) (hx : x ≠ Double.nan)
    (h : Double.le x Double.zero = false) : Double.gt x Double.zero = true := by
  cases x <;> simp_all [Double.gt, Double.le, Double.lt, Double.eq, Double.zero]
  rename_i q
  exact h.1.lt_of_ne (fun h0 => h.2 h0.symm)

theorem Double.gt_zero_of_positiveValue (d : Double) (h : Double.PositiveValue d) :
    Double.gt d Double.zero = true := by
  cases d with
  | nan => exact absurd h id
  | negInf => exact absurd h id
  | posInf => rfl
  | fin q =>
    have h0 : (0 : ℚ) < 2 ^ (-1074 : ℤ) := by positivity
    have hq : (2 : ℚ) ^ (-1074 : ℤ) ≤ q := h
    simp only [Double.gt, Double.lt, Double.zero, decide_eq_true_eq]
    exact h0.trans_le hq

theorem Double.floor_le_roundHalfEven (x : ℚ) : ⌊x⌋ ≤ Double.roundHalfEven x := by
  unfold Double.roundHalfEven
  split_ifs <;> omega

theorem Double.quantum_ge (q : ℚ) : (2 : ℚ) ^ (-1074 : ℤ) ≤ Double.quantum q := by
  unfold Double.quantum
  refine zpow_le_zpow_right₀ (by norm_num) ?_
  have := le_max_right (Int.log 2 |q|) (-1022)
  omega

theorem Double.quantum_le (q : ℚ) (hq : (2 : ℚ) ^ (-1074 : ℤ) ≤ q) : Double.quantum q ≤ q := by
  have hpos : (0 : ℚ) < q := lt_of_lt_of_le (by positivity) hq
  unfold Double.quantum
  rw [abs_of_pos hpos]
  rcases le_total (Int.log 2 q) (-1022) with h | h
  · rw [max_eq_right h]
    exact hq
  · rw [max_eq_left h]
    have h1 : (2 : ℚ) ^ (Int.log 2 q - 52) ≤ (2 : ℚ) ^ Int.log 2 q :=
      zpow_le_zpow_right₀ (by norm_num) (by omega)
    have h2 : (2 : ℚ) ^ Int.log 2 q ≤ q := by
      have := @Int.zpow_log_le_self ℚ _ _ 2 _ (by norm_num) hpos
      exact_mod_cast this
    exact h1.trans h2

/-- The binary64 sum of two positive binary64 values is a positive binary64
value. -/
theorem Double.positiveValue_add (a b : Double) (ha : Double.PositiveValue a)
    (hb : Double.PositiveValue b) : Double.PositiveValue (Double.add a b) := by
  cases a with
  | nan => exact absurd ha id
  | negInf => exact absurd ha id
  | posInf =>
    cases b with
    | nan => exact absurd hb id
    | negInf => exact absurd hb id
    | posInf => exact trivial
    | fin y => exact trivial
  | fin x =>
    cases b with
    | nan => exact absurd hb id
    | negInf => exact absurd hb id
    | posInf => exact trivial
    | fin y =>
      have hx : (2 : ℚ) ^ (-1074 : ℤ) ≤ x := ha
      have hy : (2 : ℚ) ^ (-1074 : ℤ) ≤ y := hb
      have h0 : (0 : ℚ) < 2 ^ (-1074 : ℤ) := by positivity
      have hs : (2 : ℚ) ^ (-1074 : ℤ) ≤ x + y := by linarith
      have hpos : (0 : ℚ) < x + y := by linarith
      have hu := Double.quantum_ge (x + y)
      have hupos : (0 : ℚ) < Double.quantum (x + y) := h0.trans_le hu
      have hone : (1 : ℚ) ≤ (x + y) / Double.quantum (x + y) := by
        rw [le_div_iff₀ hupos, one_mul]
        exact Double.quantum_le _ hs
      have hfl : (1 : ℤ) ≤ ⌊(x + y) / Double.quantum (x + y)⌋ := Int.le_floor.mpr (by simpa using hone)
      have hn : (1 : ℤ) ≤ Double.roundHalfEven ((x + y) / Double.quantum (x + y)) :=
        hfl.trans (Double.floor_le_roundHalfEven _)
      have hnq : (1 : ℚ) ≤ (Double.roundHalfEven ((x + y) / Double.quantum (x + y)) : ℚ) := by
        exact_mod_cast hn
      rw [Double.add_fin, Double.round64_pos _ hpos]
      split_ifs
      · exact trivial
      · show (2 : ℚ) ^ (-1074 : ℤ) ≤ _
        calc (2 : ℚ) ^ (-1074 : ℤ) ≤ Double.quantum (x + y) := hu
          _ = 1 * Double.quantum (x + y) := (one_mul _).symm
          _ ≤ _ := mul_le_mul_of_nonneg_right hnq hupos.le

theorem Double.positiveValue_foldl (l : List Double) :
    ∀ a : Double, Double.PositiveValue a → (∀ q ∈ l, Double.PositiveValue q) →
      Double.PositiveValue (l.foldl Double.add a) := by
  induction l with
  | nil => intro a ha _; exact ha
  | cons q l ih =>
    intro a ha hl
    rw [List.foldl_cons]
    exact ih _ (Double.positiveValue_add a q ha (hl q (List.mem_cons_self _ _)))
      (fun x hx => hl x (List.mem_cons_of_mem _ hx))

theorem positive_of_positive64 (s : Side) (h : s.Positive64) : s.Positive :=
  fun e he => ⟨(h e he).1, Double.gt_zero_of_positiveValue _ (h e he).2⟩

theorem multimapInsert_positive64 (s : Side) (k v : Double) (hs : s.Positive64)
    (hk : Double.gt k Double.zero = true) (hv : Double.PositiveValue v) :
    Side.Positive64 (multimapInsert s k v) := by
  intro e he
  rcases List.mem_cons.mp ((multimapInsert_perm s k v).subset he) with rfl | he
  · exact ⟨hk, hv⟩
  · exact hs e he

theorem aggregateLoop_positive64 :
    ∀ (n : Nat) (it : List Entry) (acc : Side), it.length ≤ n → Side.Positive64 it →
      Side.Positive64 acc → Side.Positive64 (aggregateLoop it acc) := by
  intro n
  induction n with
  | zero =>
    intro it acc hlen _ hacc
    have hnil : it = [] := List.length_eq_zero.mp (Nat.le_zero.mp hlen)
    subst hnil
    rw [aggregateLoop]
    exact hacc
  | succ n ih =>
    intro it acc hlen hit hacc
    cases it with
    | nil => rw [aggregateLoop]; exact hacc
    | cons c rest =>
      have hsub : (rest.dropWhile (fun e => Double.eq e.1 c.1)).Sublist rest :=
        List.dropWhile_sublist _
      have htake : (rest.takeWhile (fun e => Double.eq e.1 c.1)).Sublist rest :=
        List.takeWhile_sublist _
      have hc := hit c (List.mem_cons_self _ _)
      rw [aggregateLoop_cons]
      refine ih _ _ (Nat.le_trans hsub.length_le (Nat.le_of_succ_le_succ hlen))
        (fun e he => hit e (List.mem_cons_of_mem _ (hsub.subset he)))
        (multimapInsert_positive64 acc _ _ hacc hc.1
          (Double.positiveValue_foldl _ c.2 hc.2 ?_))
      intro q hq
      obtain ⟨x, hx, hxq⟩ := List.mem_map.mp hq
      exact hxq ▸ (hit x (List.mem_cons_of_mem _ (htake.subset hx))).2

/-- What holds of the positivity invariant: the empty order book is positive,
and `addBid`, `addAsk` with arguments that are binary64 values other than NaN,
`aggregateOrders` and `displayOrderBook` keep both sides positive. -/
theorem positivity_kept (ob : OrderBook) (price quantity : Double) (hb : ob.bid.Positive64)
    (ha : ob.ask.Positive64) (hp : price ≠ Double.nan) (hq : quantity ≠ Double.nan)
    (hq64 : ∀ q : ℚ, quantity = Double.fin q → 0 < q → (2 : ℚ) ^ (-1074 : ℤ) ≤ q) :
    (Side.Positive64 OrderBook.new.bid ∧ Side.Positive64 OrderBook.new.ask) ∧
    (Side.Positive64 (addBid ob price quantity).1.bid ∧
      Side.Positive64 (addBid ob price quantity).1.ask) ∧
    (Side.Positive64 (addAsk ob price quantity).1.bid ∧
      Side.Positive64 (addAsk ob price quantity).1.ask) ∧
    (Side.Positive64 (aggregateOrders ob).bid ∧ Side.Positive64 (aggregateOrders ob).ask) ∧
    (Side.Positive64 (displayOrderBook ob).1.bid ∧
      Side.Positive64 (displayOrderBook ob).1.ask) := by
  have hnil : Side.Positive64 [] := fun e he => absurd he (List.not_mem_nil e)
  have hval : Double.le quantity Double.zero = false → Double.PositiveValue quantity := by
    intro hg
    have hgt := Double.gt_zero_of_not_le _ hq hg
    cases hquant : quantity with
    | nan => exact absurd hquant hq
    | negInf => rw [hquant] at hgt; exact absurd hgt (by decide)
    | posInf => exact trivial
    | fin q =>
      rw [hquant] at hgt
      have hpos : (0 : ℚ) < q := by
        simpa [Double.gt, Double.lt, Double.zero] using hgt
      exact hq64 q hquant hpos
  have hins : ∀ s : Side, s.Positive64 →
      ¬ (Double.le price Double.zero || Double.le quantity Double.zero) = true →
      Side.Positive64 (multimapInsert s price quantity) := by
    intro s hs hg
    have hg' : Double.le price Double.zero = false ∧ Double.le quantity Double.zero = false := by
      simpa using hg
    exact multimapInsert_positive64 s _ _ hs (Double.gt_zero_of_not_le _ hp hg'.1)
      (hval hg'.2)
  refine ⟨⟨hnil, hnil⟩, ?_, ?_, ?_, ⟨hb, ha⟩⟩
  · unfold addBid
    split
    · exact ⟨hb, ha⟩
    · rename_i hg
      exact ⟨hins _ hb hg, ha⟩
  · unfold addAsk
    split
    · exact ⟨hb, ha⟩
    · rename_i hg
      exact ⟨hb, hins _ ha hg⟩
  · exact ⟨aggregateLoop_positive64 _ _ [] (Nat.le_refl _)
        (fun e he => hb e (List.mem_reverse.mp he)) hnil,
      aggregateLoop_positive64 _ _ [] (Nat.le_refl _) ha hnil⟩

/-! ## Instances of the theorems on sample states -/

theorem sampleBook_WF : sampleBook.bid.WF ∧ sampleBook.ask.WF := by
  unfold Side.WF
  decide

/-- C1 (witness): `addBid(150, 10)` and `addAsk(155, 10)` on the sample order
book, which already holds entries at these prices. -/
theorem addBid_addAsk_valid_witness :
    Double.gt (Double.fin 150) Double.zero = true ∧
      Double.gt (Double.fin 10) Double.zero = true ∧
      (addBid sampleBook (Double.fin 150) (Double.fin 10)).1.bid.length = 4 ∧
      (addBid sampleBook (Double.fin 150) (Double.fin 10)).1.bid.Perm
        ((Double.fin 150, Double.fin 10) :: sampleBook.bid) ∧
      (addBid sampleBook (Double.fin 150) (Double.fin 10)).1.bid
        = [(Double.fin 140, Double.fin 7), (Double.fin 150, Double.fin 10),
            (Double.fin 150, Double.fin 5), (Double.fin 150, Double.fin 10)] :=
  ⟨by decide, by decide,
    (addBid_addAsk_valid sampleBook (Double.fin 150) (Double.fin 10)
      (by decide) (by decide)).1.2.2.1,
    (addBid_addAsk_valid sampleBook (Double.fin 150) (Double.fin 10)
      (by decide) (by decide)).1.2.2.2,
    by decide⟩

/-- C2 (witness): a zero price with a positive quantity, on the sample order
book. -/
theorem addBid_addAsk_invalid_witness :
    (Double.le (Double.fin 0) Double.zero = true ∨
        Double.le (Double.fin 10) Double.zero = true) ∧
      (addBid sampleBook (Double.fin 0) (Double.fin 10)).1 = sampleBook ∧
      (addAsk sampleBook (Double.fin 0) (Double.fin 10)).1 = sampleBook :=
  ⟨Or.inl (by decide),
    addBid_addAsk_invalid sampleBook (Double.fin 0) (Double.fin 10) (Or.inl (by decide))⟩

/-- C3 (witness): aggregation of the sample order book. -/
theorem aggregateOrders_aggregates_witness :
    sampleBook.bid.WF ∧ sampleBook.ask.WF ∧
      Side.IsAggregationOf (aggregateOrders sampleBook).bid sampleBook.bid.reverse ∧
      Side.IsAggregationOf (aggregateOrders sampleBook).ask sampleBook.ask ∧
      (aggregateOrders sampleBook).bid
        = [(Double.fin 140, Double.fin 7), (Double.fin 150, Double.fin 15)] ∧
      (aggregateOrders sampleBook).ask = [(Double.fin 155, Double.fin 12)] := by
  have h15 : Double.add (Double.fin 5) (Double.fin 10) = Double.fin 15 := by
    have h := Double.add_small 5 10 (by norm_num) (by norm_num)
    norm_num at h
    exact h
  have h12 : Double.add (Double.fin 10) (Double.fin 2) = Double.fin 12 := by
    have h := Double.add_small 10 2 (by norm_num) (by norm_num)
    norm_num at h
    exact h
  refine ⟨sampleBook_WF.1, sampleBook_WF.2,
    (aggregateOrders_aggregates sampleBook sampleBook_WF.1 sampleBook_WF.2).1,
    (aggregateOrders_aggregates sampleBook sampleBook_WF.1 sampleBook_WF.2).2, ?_, ?_⟩
  · simp [aggregateOrders, sampleBook, aggregateLoop, absorb, multimapInsert, Double.eq,
      Double.lt, h15]
    norm_num
  · simp [aggregateOrders, sampleBook, aggregateLoop, absorb, multimapInsert, Double.eq, h12]

/-- Instance of the idempotence under the multimap invariant: aggregating the
sample order book twice. -/
theorem aggregateOrders_idempotent_witness :
    sampleBook.bid.WF ∧ sampleBook.ask.WF ∧
      aggregateOrders (aggregateOrders sampleBook) = aggregateOrders sampleBook :=
  ⟨sampleBook_WF.1, sampleBook_WF.2,
    aggregateOrders_idempotent sampleBook sampleBook_WF.1 sampleBook_WF.2⟩

end OrderBookServer
